import Mathlib

/-!
Verification of the patch-parsing / line-mapping / chunking core of the
ai-code-reviewer repository.

Strings are modelled as `List Char` (JavaScript strings over the ASCII inputs
these functions handle); every function below is a direct translation of the
corresponding JavaScript function, with its source location noted.
-/

/-- JavaScript-style whitespace test for the characters that occur in diff
text (space, tab, carriage return, newline). -/
def isWsChar (c : Char) : Bool :=
  c = ' ' || c = '\t' || c = '\r' || c = '\n'

/-- `line.trim().length == 0` for a single line: all characters whitespace. -/
def isBlankL (l : List Char) : Bool :=
  l.all isWsChar

/-- JavaScript `str.split('\n')` on the character list.  `splitLines [] = [[]]`
just as `''.split('\n') == ['']`. -/
def splitLines : List Char → List (List Char)
  | [] => [[]]
  | c :: rest =>
    if c = '\n' then [] :: splitLines rest
    else
      match splitLines rest with
      | l :: ls => (c :: l) :: ls
      | [] => [[c]]

/-- JavaScript `arr.join('\n')` on character-list lines. -/
def joinNL : List (List Char) → List Char
  | [] => []
  | [l] => l
  | l :: ls => l ++ '\n' :: joinNL ls

/-- Does the line start with the given literal (JavaScript `startsWith`)? -/
def listStartsWith : List Char → List Char → Bool
  | _, [] => true
  | [], _ :: _ => false
  | c :: l, p :: ps => c = p && listStartsWith l ps

/-- Longest digit run at the front of the list, plus the remainder. -/
def takeDigits : List Char → List Char × List Char
  | [] => ([], [])
  | c :: rest =>
    if c.isDigit then
      let (d, r) := takeDigits rest
      (c :: d, r)
    else ([], c :: rest)

/-- Decimal value of a digit run (JavaScript `parseInt(s, 10)` on the matched
digit captures, which are always pure digit strings here). -/
def digitsToNat (ds : List Char) : Nat :=
  ds.foldl (fun n c => n * 10 + (c.toNat - '0'.toNat)) 0

/-!
## Patch parser
Source: `src/utils/patchParser.js` (class `PatchParser`).
-/

/-- Deterministic matcher for the hunk-header pattern
`^@@ -(\d+),?(\d*) \+(\d+),?(\d*) @@` of `patchParser.js:9`.
Returns the four captures `(oldStart, oldCount?, newStart, newCount?)`, the
count captures being `none` when the corresponding `\d*` matched the empty
string.  The regex quantifiers here never need backtracking (digit runs are
maximal and each quantifier boundary sits at a non-digit character), so a
greedy one-pass parse matches exactly the same lines as the regex. -/
def matchHunkHeader (line : List Char) : Option (Nat × Option Nat × Nat × Option Nat) :=
  match line with
  | '@' :: '@' :: ' ' :: '-' :: rest =>
    match takeDigits rest with
    | ([], _) => none
    | (d1, r1) =>
      let (c1, r2) :=
        match r1 with
        | ',' :: r => takeDigits r
        | _ => ([], r1)
      match r2 with
      | ' ' :: '+' :: rest2 =>
        match takeDigits rest2 with
        | ([], _) => none
        | (d3, r3) =>
          let (c2, r4) :=
            match r3 with
            | ',' :: r => takeDigits r
            | _ => ([], r3)
          match r4 with
          | ' ' :: '@' :: '@' :: _ =>
            some (digitsToNat d1,
                  (if c1.isEmpty then none else some (digitsToNat c1)),
                  digitsToNat d3,
                  (if c2.isEmpty then none else some (digitsToNat c2)))
          | _ => none
      | _ => none
  | _ => none

/-- Line type of a diff body line (`patchParser.js:163`, `getLineType`). -/
inductive LineType where
  | added
  | removed
  | context
  | other
deriving DecidableEq, Repr

/-- `getLineType` (`patchParser.js:163-173`). -/
def getLineType (line : List Char) : LineType :=
  match line with
  | '+' :: _ => .added
  | '-' :: _ => .removed
  | ' ' :: _ => .context
  | _ => .other

/-- `cleanLineContent` (`patchParser.js:180-182`): strip one leading
`+`, `-` or space. -/
def cleanLineContent (line : List Char) : List Char :=
  match line with
  | c :: rest => if c = '+' || c = '-' || c = ' ' then rest else line
  | [] => []

/-- Metadata-line test of `patchParser.js:63`. -/
def isMetadataLine (line : List Char) : Bool :=
  listStartsWith line ['-', '-', '-'] ||
  listStartsWith line ['+', '+', '+'] ||
  listStartsWith line ['I', 'n', 'd', 'e', 'x', ':'] ||
  listStartsWith line ['d', 'i', 'f', 'f', ' ', '-', '-', 'g', 'i', 't']

/-- One processed body line (`patchParser.js:72-78`). -/
structure DiffEntry where
  originalLineNumber : Option Nat
  modifiedLineNumber : Option Nat
  content : List Char
  type : LineType
  rawLine : List Char
deriving DecidableEq, Repr

/-- The in-progress hunk of the parse loop (`patchParser.js:47-54`). -/
structure RawHunk where
  oldStartLine : Nat
  oldLineCount : Nat
  newStartLine : Nat
  newLineCount : Nat
  lines : List DiffEntry
  content : List (List Char)
deriving DecidableEq, Repr

/-- Integer interval; the JavaScript object field named `end` is called
`stop` here because `end` is a Lean keyword. -/
structure IntRange where
  start : Int
  stop : Int
deriving DecidableEq, Repr

/-- A finalized hunk (`finalizeHunk`, `patchParser.js:127-156`): the raw hunk
spread together with the derived metadata. -/
structure Hunk where
  oldStartLine : Nat
  oldLineCount : Nat
  newStartLine : Nat
  newLineCount : Nat
  lines : List DiffEntry
  content : List (List Char)
  index : Nat
  contextLines : Nat
  addedLines : Nat
  removedLines : Nat
  originalRange : IntRange
  modifiedRange : IntRange
  hasChanges : Bool
deriving DecidableEq, Repr

/-- JavaScript-truthy original line numbers of a hunk's entries
(`hunk.lines.filter(l => l.originalLineNumber)`, `patchParser.js:133`):
`null` and `0` are both falsy. -/
def truthyOrigs (lines : List DiffEntry) : List Nat :=
  lines.filterMap fun e =>
    match e.originalLineNumber with
    | some v => if v = 0 then none else some v
    | none => none

/-- Truthy modified line numbers (`patchParser.js:134`). -/
def truthyMods (lines : List DiffEntry) : List Nat :=
  lines.filterMap fun e =>
    match e.modifiedLineNumber with
    | some v => if v = 0 then none else some v
    | none => none

/-- `finalizeHunk` (`patchParser.js:127-156`). -/
def finalizeHunk (h : RawHunk) (index : Nat) : Hunk :=
  let origs := truthyOrigs h.lines
  let mods := truthyMods h.lines
  { oldStartLine := h.oldStartLine
    oldLineCount := h.oldLineCount
    newStartLine := h.newStartLine
    newLineCount := h.newLineCount
    lines := h.lines
    content := h.content
    index := index
    contextLines := (h.lines.filter (fun l => l.type = .context)).length
    addedLines := (h.lines.filter (fun l => l.type = .added)).length
    removedLines := (h.lines.filter (fun l => l.type = .removed)).length
    originalRange :=
      { start := origs.foldr (fun v m => min (v : Int) m) (h.oldStartLine : Int)
        stop := origs.foldr (fun v m => max (v : Int) m)
          ((h.oldStartLine : Int) + h.oldLineCount - 1) }
    modifiedRange :=
      { start := mods.foldr (fun v m => min (v : Int) m) (h.newStartLine : Int)
        stop := mods.foldr (fun v m => max (v : Int) m)
          ((h.newStartLine : Int) + h.newLineCount - 1) }
    hasChanges := decide (0 < (h.lines.filter (fun l => l.type = .added)).length) ||
      decide (0 < (h.lines.filter (fun l => l.type = .removed)).length) }

/-- Result of `parsePatch` (`patchParser.js:18-24`).  `hasContent` is the
truthiness of `patchContent && patchContent.trim().length > 0`. -/
structure ParsedDiff where
  hunks : List Hunk
  totalLines : Nat
  originalLineCount : Nat
  modifiedLineCount : Nat
  hasContent : Bool
deriving DecidableEq, Repr

/-- Mutable state of the `parsePatch` loop (`patchParser.js:31-34`). -/
structure ParseState where
  hunks : List Hunk
  currentHunk : Option RawHunk
  originalLineNum : Nat
  modifiedLineNum : Nat
  hunkIndex : Nat
deriving DecidableEq, Repr

/-- Body of the `for (const line of lines)` loop of `parsePatch`
(`patchParser.js:36-104`). -/
def parseStep (st : ParseState) (line : List Char) : ParseState :=
  match matchHunkHeader line with
  | some (oldStart, oldCount, newStart, newCount) =>
    let hunks' :=
      match st.currentHunk with
      | some h => st.hunks ++ [finalizeHunk h st.hunkIndex]
      | none => st.hunks
    let idx' :=
      match st.currentHunk with
      | some _ => st.hunkIndex + 1
      | none => st.hunkIndex
    { hunks := hunks'
      currentHunk := some
        { oldStartLine := oldStart
          oldLineCount := oldCount.getD 1
          newStartLine := newStart
          newLineCount := newCount.getD 1
          lines := []
          content := [] }
      originalLineNum := oldStart
      modifiedLineNum := newStart
      hunkIndex := idx' }
  | none =>
    if isMetadataLine line then st
    else
      match st.currentHunk with
      | some h =>
        if isBlankL line then st
        else
          let lineType := getLineType line
          let content := cleanLineContent line
          let processed : DiffEntry :=
            match lineType with
            | .context =>
              { originalLineNumber := some st.originalLineNum
                modifiedLineNumber := some st.modifiedLineNum
                content := content, type := lineType, rawLine := line }
            | .added =>
              { originalLineNumber := none
                modifiedLineNumber := some st.modifiedLineNum
                content := content, type := lineType, rawLine := line }
            | .removed =>
              { originalLineNumber := some st.originalLineNum
                modifiedLineNumber := none
                content := content, type := lineType, rawLine := line }
            | .other =>
              { originalLineNumber := none
                modifiedLineNumber := none
                content := content, type := lineType, rawLine := line }
          { st with
            currentHunk := some
              { h with
                lines := h.lines ++ [processed]
                content := h.content ++ [content] }
            originalLineNum :=
              match lineType with
              | .context => st.originalLineNum + 1
              | .removed => st.originalLineNum + 1
              | _ => st.originalLineNum
            modifiedLineNum :=
              match lineType with
              | .context => st.modifiedLineNum + 1
              | .added => st.modifiedLineNum + 1
              | _ => st.modifiedLineNum }
      | none => st

/-- `parsePatch` (`patchParser.js:17-119`).  The `Math.max(..., 0)` totals are
computed with natural-number truncated subtraction, which agrees with the
JavaScript integers because the only negative summand possible,
`0 + 0 - 1 = -1`, is absorbed by the final `max` with `0` either way. -/
def parsePatch (patchContent : String) : ParsedDiff :=
  let hasContent := !isBlankL patchContent.data
  if hasContent then
    let lines := splitLines patchContent.data
    let st := lines.foldl parseStep
      { hunks := [], currentHunk := none
        originalLineNum := 1, modifiedLineNum := 1, hunkIndex := 0 }
    let hunks :=
      match st.currentHunk with
      | some h => st.hunks ++ [finalizeHunk h st.hunkIndex]
      | none => st.hunks
    { hunks := hunks
      totalLines := lines.length
      originalLineCount :=
        hunks.foldr (fun h m => max (h.oldStartLine + h.oldLineCount - 1) m) 0
      modifiedLineCount :=
        hunks.foldr (fun h m => max (h.newStartLine + h.newLineCount - 1) m) 0
      hasContent := true }
  else
    { hunks := [], totalLines := 0, originalLineCount := 0
      modifiedLineCount := 0, hasContent := false }

/-- Hunk scan of `mapPatchLineToOriginalFile` (`patchParser.js:196-207`).
The guard `patchLine && patchLine.originalLineNumber` is JavaScript-truthy:
a missing entry, a `null` number and a `0` number all fall through to the
next hunk. -/
def mapOrigGo (n : Int) : List Hunk → Option Nat
  | [] => none
  | h :: rest =>
    if n ≤ (h.content.length : Int) ∧ 0 < n then
      match h.lines.get? (n - 1).toNat with
      | some e =>
        match e.originalLineNumber with
        | some v => if v = 0 then mapOrigGo n rest else some v
        | none => mapOrigGo n rest
      | none => mapOrigGo n rest
    else mapOrigGo n rest

/-- `mapPatchLineToOriginalFile` (`patchParser.js:190-211`). -/
def mapPatchLineToOriginalFile (aiLineNumber : Int) (parsedPatch : ParsedDiff) :
    Option Nat :=
  if parsedPatch.hunks.isEmpty then none
  else mapOrigGo aiLineNumber parsedPatch.hunks

/-- The `fileType` argument of `isValidLineNumber`. -/
inductive FileType where
  | original
  | modified
deriving DecidableEq, Repr

/-- `isValidLineNumber` (`patchParser.js:304-314`); `!lineNumber` is subsumed
by `lineNumber <= 0` for integer inputs. -/
def isValidLineNumber (lineNumber : Int) (parsedPatch : ParsedDiff)
    (fileType : FileType) : Bool :=
  if parsedPatch.hunks.isEmpty || lineNumber ≤ 0 then false
  else
    match fileType with
    | .original => lineNumber ≤ (parsedPatch.originalLineCount : Int)
    | .modified => lineNumber ≤ (parsedPatch.modifiedLineCount : Int)

/-!
## File chunker
Source: the `FileChunker` class (file `fileChunker`-style utility of the
repository, provided as `src/unnamed/part_017`).
-/

/-- One chunk (`part_017:24-30,46-52`).  JavaScript first stores
`totalChunks: null` and overwrites it after the loop (`part_017:75-79`);
here the placeholder is `0` and the final pass sets the real count. -/
structure Chunk where
  content : List Char
  startLine : Nat
  endLine : Nat
  chunkIndex : Nat
  totalChunks : Nat
deriving DecidableEq, Repr

/-- Loop body of `getOverlapLines` (`part_017:96-106`): scan indices `j`
upward from the loop start, pushing each line while the running size stays
within `maxOverlap`, stopping at the first line that does not fit.  The
JavaScript loop `for (i = max(0, endIndex - 10); i <= endIndex; i++)` runs a
fixed number of iterations, carried here as the structural `fuel` argument
(`fuel = endIndex + 1 - start`, computed in `getOverlapLines`).  Once `j`
reaches `lines.length` the JavaScript loop keeps iterating but its body's
`i < lines.length` guard skips every remaining push, so returning `[]` at a
failed lookup yields the same list. -/
def overlapGo (lines : List (List Char)) (maxOverlap : Nat) :
    Nat → Nat → Nat → List (List Char)
  | 0, _, _ => []
  | fuel + 1, j, size =>
    match lines.get? j with
    | some line =>
      if size + line.length + 1 ≤ maxOverlap then
        line :: overlapGo lines maxOverlap fuel (j + 1) (size + line.length + 1)
      else []
    | none => []

/-- `getOverlapLines` (`part_017:92-109`): scan from `max(0, endIndex - 10)`
to `endIndex` inclusive. -/
def getOverlapLines (lines : List (List Char)) (endIndex : Int)
    (maxOverlap : Nat) : List (List Char) :=
  overlapGo lines maxOverlap (endIndex + 1 - (endIndex - 10).toNat).toNat
    (endIndex - 10).toNat 0

/-- State threaded through the `chunkFile` loop (`part_017:34-37`). -/
structure CState where
  chunks : List Chunk
  buf : List Char
  startLine : Nat
  idx : Nat
deriving DecidableEq, Repr

/-- The `for (let i = 0; ...)` loop of `chunkFile` (`part_017:39-62`),
recursing over the remaining lines with `i` the index of the current line.
`buf` is `currentChunk`, `startLine` is `currentStartLine`, `idx` is
`chunkIndex`.  Note that in the split branch the current line `lines[i]` is
not appended anywhere: the JavaScript code seeds the new chunk purely from
the overlap lines and moves on to `i + 1`. -/
def chunkLoopGo (lines : List (List Char)) (maxChunkSize overlap : Nat) :
    Nat → List (List Char) → CState → CState
  | _, [], st => st
  | i, line :: rest, st =>
    let potential := st.buf ++ (if st.buf.isEmpty then [] else ['\n']) ++ line
    if potential.length > maxChunkSize ∧ 0 < st.buf.length then
      let sealed : Chunk :=
        { content := st.buf, startLine := st.startLine, endLine := i
          chunkIndex := st.idx, totalChunks := 0 }
      let overlapLines := getOverlapLines lines ((i : Int) - 1) overlap
      chunkLoopGo lines maxChunkSize overlap (i + 1) rest
        { chunks := st.chunks ++ [sealed]
          buf := joinNL overlapLines
          startLine := (max 1 ((i : Int) - overlapLines.length + 1)).toNat
          idx := st.idx + 1 }
    else
      chunkLoopGo lines maxChunkSize overlap (i + 1) rest { st with buf := potential }

/-- `chunkFile` (`part_017:19-83`), with `maxChunkSize` and `overlap` the
already-resolved option values (`options.maxChunkSize || config... || 50000`,
`options.overlap || 1000`). -/
def chunkFile (content : List Char) (maxChunkSize overlap : Nat) : List Chunk :=
  if content.length ≤ maxChunkSize then
    [{ content := content, startLine := 1
       endLine := (splitLines content).length, chunkIndex := 0, totalChunks := 1 }]
  else
    let lines := splitLines content
    let st := chunkLoopGo lines maxChunkSize overlap 0 lines
      { chunks := [], buf := [], startLine := 1, idx := 0 }
    let chunks :=
      if st.buf.isEmpty then st.chunks
      else st.chunks ++ [{ content := st.buf, startLine := st.startLine
                           endLine := lines.length, chunkIndex := st.idx
                           totalChunks := 0 }]
    chunks.map fun c => { c with totalChunks := chunks.length }

/-- A review comment as produced by the AI capability, for
`adjustCommentLineNumbers`: the line number may be absent and the rest of the
comment is opaque payload that must pass through untouched. -/
structure RComment where
  line_number : Option Int
  body : List Char
deriving DecidableEq, Repr

/-- `adjustCommentLineNumbers` (`part_017:158-174`).  The guard
`if (!comment.line_number) return comment` is JavaScript-truthy, so a comment
whose `line_number` is `null` *or `0`* is returned unchanged; otherwise the
line is shifted by `chunk.startLine - 1` and clamped with
`Math.max(1, Math.min(adjusted, originalContentLines))`. -/
def adjustCommentLineNumbers (comments : List RComment) (chunk : Chunk)
    (originalContentLines : Nat) : List RComment :=
  comments.map fun comment =>
    match comment.line_number with
    | none => comment
    | some n =>
      if n = 0 then comment
      else
        { comment with
          line_number := some (max 1 (min ((chunk.startLine : Int) + n - 1)
            (originalContentLines : Int))) }

/-!
## Review service
Source: the `AIReviewService` class (`src/unnamed/part_011`), methods
`reviewCodeChunk` (lines 268-319) and `validateCommentLineNumber`
(lines 327-342).  The AI invocation (`aiProvider.reviewCode`) and the
comment formatter are external collaborators; they enter the model as the
`comments` list and the `fmt` function respectively.
-/

/-- The slice of the GitHub file object that `reviewCodeChunk` and
`validateCommentLineNumber` read (`filename`, `size`); the remaining fields
(`status`, `additions`, ...) only feed the context string sent to the AI. -/
structure FileInfo where
  filename : List Char
  size : Option Nat
deriving DecidableEq, Repr

/-- A raw AI comment as consumed by `reviewCodeChunk`. -/
structure AIComment where
  line_number : Option Int
  severity : List Char
  type : List Char
deriving DecidableEq, Repr

/-- The GitHub-review-format comment built at `part_011:304-317`. -/
structure PostableComment where
  path : List Char
  line : Option Int
  body : List Char
  commitId : Option (List Char)
  severity : List Char
  type : List Char
  originalLineNumber : Option Int
deriving DecidableEq, Repr

/-- `Math.max(file.size || 1000, 50)` of `part_011:333`: the conservative
line-count estimate (`file.size || 1000` is JavaScript-truthy, so a size of
`0` also falls back to `1000`). -/
def estimatedLineCount (file : FileInfo) : Nat :=
  max (match file.size with
       | some s => if s = 0 then 1000 else s
       | none => 1000) 50

/-- `validateCommentLineNumber` (`part_011:327-342`); the `!lineNumber`
guard is subsumed by `lineNumber <= 0` for integer inputs. -/
def validateCommentLineNumber (lineNumber : Int) (file : FileInfo) : Option Int :=
  if lineNumber ≤ 0 then none
  else if lineNumber > (estimatedLineCount file : Int) * 2 then none
  else some lineNumber

/-- The comment post-processing of `reviewCodeChunk` (`part_011:287-318`):
filter out comments with absent/non-positive line numbers or line numbers
beyond the chunk's own line count, convert the survivors to GitHub review
format (validating against the size-derived estimate), and drop the ones
whose validated line came back `null`. -/
def reviewCodeChunk (fmt : AIComment → List Char) (comments : List AIComment)
    (code : List Char) (file : FileInfo) (commitId : Option (List Char)) :
    List PostableComment :=
  let lineCount := (splitLines code).length
  (((comments.filter fun comment =>
      match comment.line_number with
      | none => false
      | some n =>
        if n ≤ 0 then false
        else decide (n ≤ (lineCount : Int))).map fun comment =>
    { path := file.filename
      line :=
        match comment.line_number with
        | some n => validateCommentLineNumber n file
        | none => none
      body := fmt comment
      commitId := commitId
      severity := comment.severity
      type := comment.type
      originalLineNumber := comment.line_number }).filter fun pc => pc.line.isSome)

/-!
## Spec-side definitions
These definitions follow the words of the specification (not the code) and
exist only to be compared against the code-derived definitions above.
-/

/-- Collect lines while the running size (`length + 1` per line) stays within
`maxOverlap`, stopping at the first line that does not fit. -/
def budgetTake (maxOverlap : Nat) : Nat → List (List Char) → List (List Char)
  | _, [] => []
  | size, l :: rest =>
    if size + l.length + 1 ≤ maxOverlap then
      l :: budgetTake maxOverlap (size + l.length + 1) rest
    else []

/-- Written from the spec's words for claim C4: "walk backward from the split
point collecting whole lines until `overlap` characters would be exceeded,
then use those lines (in original order)". -/
def specOverlapLines (lines : List (List Char)) (splitIndex maxOverlap : Nat) :
    List (List Char) :=
  (budgetTake maxOverlap 0 ((lines.take splitIndex).reverse)).reverse

/-- The `chunkFile` loop with the spec's backward-walk overlap seeding in
place of `getOverlapLines`; identical to `chunkLoopGo` otherwise. -/
def chunkLoopSpecGo (lines : List (List Char)) (maxChunkSize overlap : Nat) :
    Nat → List (List Char) → CState → CState
  | _, [], st => st
  | i, line :: rest, st =>
    let potential := st.buf ++ (if st.buf.isEmpty then [] else ['\n']) ++ line
    if potential.length > maxChunkSize ∧ 0 < st.buf.length then
      let sealed : Chunk :=
        { content := st.buf, startLine := st.startLine, endLine := i
          chunkIndex := st.idx, totalChunks := 0 }
      let overlapLines := specOverlapLines lines i overlap
      chunkLoopSpecGo lines maxChunkSize overlap (i + 1) rest
        { chunks := st.chunks ++ [sealed]
          buf := joinNL overlapLines
          startLine := (max 1 ((i : Int) - overlapLines.length + 1)).toNat
          idx := st.idx + 1 }
    else
      chunkLoopSpecGo lines maxChunkSize overlap (i + 1) rest { st with buf := potential }

/-- `chunkFile` as claim C4 describes it: same algorithm, but each new chunk
is seeded with the spec's backward-walk overlap lines. -/
def chunkFileSpecSeed (content : List Char) (maxChunkSize overlap : Nat) :
    List Chunk :=
  if content.length ≤ maxChunkSize then
    [{ content := content, startLine := 1
       endLine := (splitLines content).length, chunkIndex := 0, totalChunks := 1 }]
  else
    let lines := splitLines content
    let st := chunkLoopSpecGo lines maxChunkSize overlap 0 lines
      { chunks := [], buf := [], startLine := 1, idx := 0 }
    let chunks :=
      if st.buf.isEmpty then st.chunks
      else st.chunks ++ [{ content := st.buf, startLine := st.startLine
                           endLine := lines.length, chunkIndex := st.idx
                           totalChunks := 0 }]
    chunks.map fun c => { c with totalChunks := chunks.length }

/-- The window `getOverlapLines` actually scans when called from a split at
line index `splitIndex`: at most the 11 lines ending just before the split. -/
def overlapWindow (lines : List (List Char)) (splitIndex : Nat) : List (List Char) :=
  (lines.drop (splitIndex - 11)).take (min splitIndex 11)

/-- Formalization of claim C9's description of the fallthrough target: the
`originalLineNumber` of the entry at index `n - 1` in the first hunk of the
list where that entry has a non-null `originalLineNumber`. -/
def firstNonNullOrigAt (n : Int) : List Hunk → Option Nat
  | [] => none
  | h :: rest =>
    if n ≤ (h.content.length : Int) ∧ 0 < n then
      match h.lines.get? (n - 1).toNat with
      | some e =>
        match e.originalLineNumber with
        | some v => some v
        | none => firstNonNullOrigAt n rest
      | none => firstNonNullOrigAt n rest
    else firstNonNullOrigAt n rest

/-!
## Helper definitions for the claim statements
-/

/-- Entry types that carry an original-file line number. -/
def isOrigSide (t : LineType) : Bool :=
  match t with
  | .context => true
  | .removed => true
  | _ => false

/-- Entry types that carry a modified-file line number. -/
def isModSide (t : LineType) : Bool :=
  match t with
  | .context => true
  | .added => true
  | _ => false

/-- The original line numbers assigned to context/removed entries, in entry
order. -/
def origSeqL (l : List DiffEntry) : List Nat :=
  (l.filter fun e => isOrigSide e.type).filterMap (·.originalLineNumber)

/-- The modified line numbers assigned to context/added entries, in entry
order. -/
def modSeqL (l : List DiffEntry) : List Nat :=
  (l.filter fun e => isModSide e.type).filterMap (·.modifiedLineNumber)

/-- `origSeqL` of a finalized hunk. -/
def origSeq (h : Hunk) : List Nat := origSeqL h.lines

/-- `modSeqL` of a finalized hunk. -/
def modSeq (h : Hunk) : List Nat := modSeqL h.lines

/-- The per-entry absence facts of claim C8. -/
def entryNoneOk (e : DiffEntry) : Prop :=
  (e.type = .added → e.originalLineNumber = none) ∧
  (e.type = .removed → e.modifiedLineNumber = none)

/-- Loop invariant for the open hunk: both assigned-number sequences are
strictly increasing and bounded by the running counters, and the per-entry
absence facts hold. -/
def linesInv (l : List DiffEntry) (o m : Nat) : Prop :=
  List.Chain' (· < ·) (origSeqL l) ∧ (∀ v ∈ origSeqL l, v < o) ∧
  List.Chain' (· < ·) (modSeqL l) ∧ (∀ v ∈ modSeqL l, v < m) ∧
  ∀ e ∈ l, entryNoneOk e

/-- What claim C8 asserts of every finalized hunk. -/
def goodHunk (h : Hunk) : Prop :=
  List.Chain' (· < ·) (origSeq h) ∧ List.Chain' (· < ·) (modSeq h) ∧
  ∀ e ∈ h.lines, entryNoneOk e

/-- Invariant of the whole `parsePatch` fold state. -/
def stateInv (st : ParseState) : Prop :=
  (∀ h ∈ st.hunks, goodHunk h) ∧
  ∀ rh, st.currentHunk = some rh →
    linesInv rh.lines st.originalLineNum st.modifiedLineNum

/-!
## Concrete inputs used by the claims
-/

/-- The diff of claim C1 (spec §8, example scenario 1). -/
def c1str : String :=
  "@@ -5,3 +5,3 @@\n-const oldValue = \"old\";\n+const newValue = \"new\";\n const otherVariable = true;"

/-- A new-file style diff whose single hunk declares `-0,0`, giving
`originalLineCount = 0` (claim C7). -/
def c7str : String := "@@ -0,0 +1,2 @@\n+a\n+b"

/-- Two-hunk diff for claim C9: local index 1 names an added line in hunk 0
and a removed line (original line 20) in hunk 1. -/
def c9str : String := "@@ -1,1 +1,2 @@\n+x\n@@ -20,2 +21,2 @@\n-y\n z"

/-- Three-hunk diff for claim C9's counterexample: at local index 1, hunk 0
has an added entry (null original number), hunk 1 a removed entry whose
original number is `0` (from `-0,1`), hunk 2 a removed entry with original
number `7`. -/
def c9cexStr : String :=
  "@@ -1,1 +1,1 @@\n+a\n@@ -0,1 +5,1 @@\n-b\n@@ -7,1 +9,1 @@\n-c"

/-- Diff for claim C10: the second body line is a blank context line (a lone
space), inside a hunk declaring 4 original lines. -/
def c10str : String := "@@ -10,4 +10,4 @@\n a\n \n-b\n c"

/-- Content for the chunking counterexamples: 15 characters over 4 lines. -/
def c4content : List Char := "aaaa\nbb\ncccc\ndd".data

/-- Content for claim C3's counterexample: 7 characters over 2 lines. -/
def c3content : List Char := "aaa\nbbb".data

/-- A 50-line chunk for claim C5. -/
def code50 : List Char := joinNL (List.replicate 50 ['a'])

/-- File metadata for claim C5: reported byte size 400. -/
def fileC5 : FileInfo := { filename := ['f'], size := some 400 }

/-- Placeholder hunk for total list lookups in witnesses. -/
def hunkD : Hunk :=
  { oldStartLine := 0, oldLineCount := 0, newStartLine := 0, newLineCount := 0
    lines := [], content := [], index := 0, contextLines := 0, addedLines := 0
    removedLines := 0, originalRange := ⟨0, 0⟩, modifiedRange := ⟨0, 0⟩
    hasChanges := false }

/-- Placeholder entry for lookups in witnesses. -/
def entryD : DiffEntry :=
  { originalLineNumber := none, modifiedLineNumber := none, content := []
    type := .other, rawLine := [] }

/-- The first hunk of the parsed C1 diff. -/
def c1hunk0 : Hunk := ((parsePatch c1str).hunks).headD hunkD

/-- The no-gap relation between consecutive chunks: the later chunk starts no
later than one line past the earlier chunk's end. -/
def chunkRel (a b : Chunk) : Prop := b.startLine ≤ a.endLine + 1

/-- Invariant of the `chunkFile` loop: `idx` mirrors the number of sealed
chunks, chunk indices are `0, 1, ...`, the first sealed chunk starts at
line 1 (and the pending start line is 1 while nothing is sealed), consecutive
chunks satisfy `chunkRel`, and the pending chunk connects to the last sealed
chunk, whose `endLine` is at most the current line index `i`. -/
def chunksOk (cs : List Chunk) (startL idx i : Nat) : Prop :=
  idx = cs.length ∧
  cs.map (·.chunkIndex) = List.range cs.length ∧
  (cs = [] → startL = 1) ∧
  (∀ c, cs.head? = some c → c.startLine = 1) ∧
  List.Chain' chunkRel cs ∧
  (∀ c, cs.getLast? = some c → startL ≤ c.endLine + 1 ∧ c.endLine ≤ i)

/-- `chunksOk` for a full loop state. -/
def stOk (st : CState) (i : Nat) : Prop :=
  chunksOk st.chunks st.startLine st.idx i

/-!
## Helper lemmas
-/

/-- A whitespace-only line can never match the hunk-header pattern. -/
theorem isBlankL_no_header (line : List Char) (hb : isBlankL line = true) :
    matchHunkHeader line = none := by
  cases line with
  | nil => rfl
  | cons c rest =>
    have hc : isWsChar c = true := by
      simp only [isBlankL, List.all_cons, Bool.and_eq_true] at hb
      exact hb.1
    have h4 : c = ' ' ∨ c = '\t' ∨ c = '\r' ∨ c = '\n' := by
      have := hc
      simp [isWsChar] at this
      tauto
    rcases h4 with h | h | h | h <;> subst h <;> rfl

/-- A whitespace-only body line leaves the parse state untouched: no entry is
stored and neither running counter moves (`patchParser.js:68`). -/
theorem parseStep_of_blank (st : ParseState) (line : List Char)
    (hb : isBlankL line = true) : parseStep st line = st := by
  unfold parseStep
  rw [isBlankL_no_header line hb]
  cases hm : isMetadataLine line with
  | true => simp
  | false =>
    simp only [Bool.false_eq_true, if_false]
    cases st.currentHunk with
    | none => rfl
    | some h => simp [hb]

/-- With no open hunk and no header match, a line is ignored. -/
theorem parseStep_no_header_none (st : ParseState) (line : List Char)
    (hh : matchHunkHeader line = none) (hc : st.currentHunk = none) :
    parseStep st line = st := by
  unfold parseStep
  rw [hh]
  cases hm : isMetadataLine line with
  | true => simp
  | false =>
    simp only [Bool.false_eq_true, if_false]
    rw [hc]

/-- Folding `parseStep` over header-free lines from a state with no open hunk
changes nothing. -/
theorem foldl_parseStep_no_header (lines : List (List Char)) :
    ∀ st : ParseState, (∀ l ∈ lines, matchHunkHeader l = none) →
      st.currentHunk = none → lines.foldl parseStep st = st := by
  induction lines with
  | nil => intro st _ _; rfl
  | cons l ls ih =>
    intro st hall hc
    rw [List.foldl_cons, parseStep_no_header_none st l (hall l (by simp)) hc]
    exact ih st (fun x hx => hall x (by simp [hx])) hc

/-!
## Claim C1
-/

/-- C1 counterexample: on the spec's example diff, local index 1 maps to
original line 5 as claimed, but local index 2 names the added line, whose
`originalLineNumber` is null, so `mapPatchLineToOriginalFile 2` returns
`none` — not 6 as the claim states. -/
theorem claimC1_counterexample :
    mapPatchLineToOriginalFile 1 (parsePatch c1str) = some 5 ∧
    mapPatchLineToOriginalFile 2 (parsePatch c1str) = none ∧
    mapPatchLineToOriginalFile 2 (parsePatch c1str) ≠ some 6 := by
  refine ⟨by decide, by decide, by decide⟩

/-- C1 amended: `mapPatchLineToOriginalFile 1` returns 5 (the removed line);
the ` const otherVariable = true;` context entry sits at local index 3 and
maps to original line 6, while local index 2 (the added line) maps to `none`.
The final conjunct records the entry types: removed, added, context. -/
theorem claimC1_amended :
    mapPatchLineToOriginalFile 1 (parsePatch c1str) = some 5 ∧
    mapPatchLineToOriginalFile 3 (parsePatch c1str) = some 6 ∧
    mapPatchLineToOriginalFile 2 (parsePatch c1str) = none ∧
    (parsePatch c1str).hunks.map (fun h => h.lines.map (·.type)) =
      [[.removed, .added, .context]] := by
  refine ⟨by decide, by decide, by decide, by decide⟩

/-!
## Claim C6
-/

/-- C6: `parsePatch` (a total function here, so it can throw nothing) returns
the empty result with `hasContent = false` on empty or whitespace-only input,
and yields zero hunks whenever no line of the input matches the hunk-header
pattern. -/
theorem claimC6 :
    (∀ s : String, isBlankL s.data = true →
      parsePatch s = { hunks := [], totalLines := 0, originalLineCount := 0,
                       modifiedLineCount := 0, hasContent := false }) ∧
    (∀ s : String, (∀ l ∈ splitLines s.data, matchHunkHeader l = none) →
      (parsePatch s).hunks = []) := by
  constructor
  · intro s hb
    simp [parsePatch, hb]
  · intro s hall
    by_cases hb : isBlankL s.data = true
    · simp [parsePatch, hb]
    · have hb' : isBlankL s.data = false := by
        simpa using hb
      simp only [parsePatch, hb', Bool.not_false, if_pos]
      rw [foldl_parseStep_no_header _ _ hall rfl]

/-- C6 witness: the empty input and a headerless input, with the hypotheses
checked by evaluation. -/
theorem claimC6_witness :
    parsePatch "" = { hunks := [], totalLines := 0, originalLineCount := 0,
                      modifiedLineCount := 0, hasContent := false } ∧
    (parsePatch "hello\nworld").hunks = [] := by
  exact ⟨claimC6.1 "" (by decide), claimC6.2 "hello\nworld" (by decide)⟩

/-!
## Claim C7
-/

/-- C7 counterexample: the new-file style diff `@@ -0,0 +1,2 @@` parses to one
hunk with `originalLineCount = 0 + 0 - 1` capped at `0`, and
`isValidLineNumber(originalLineCount, parsed, original)` is then `false`,
refuting "true for every diff whose parse yields at least one hunk". -/
theorem claimC7_counterexample :
    (parsePatch c7str).hunks.length = 1 ∧
    isValidLineNumber ((parsePatch c7str).originalLineCount : Int)
      (parsePatch c7str) .original = false := by
  refine ⟨by decide, by decide⟩

/-- C7 amended: `isValidLineNumber 0` and `isValidLineNumber (-1)` are false
for every parsed patch and either file side; and
`isValidLineNumber(parsed.originalLineCount, parsed, original)` is true for
every parsed patch with at least one hunk *whose `originalLineCount` is
positive* (a hunk declaring `-0,0` can drive the count to 0, in which case
the `lineNumber <= 0` guard rejects it). -/
theorem claimC7_amended :
    (∀ (p : ParsedDiff) (t : FileType), isValidLineNumber 0 p t = false) ∧
    (∀ (p : ParsedDiff) (t : FileType), isValidLineNumber (-1) p t = false) ∧
    (∀ p : ParsedDiff, p.hunks ≠ [] → 0 < p.originalLineCount →
      isValidLineNumber (p.originalLineCount : Int) p .original = true) := by
  refine ⟨?_, ?_, ?_⟩
  · intro p t
    simp [isValidLineNumber]
  · intro p t
    simp [isValidLineNumber]
  · intro p hne hpos
    have hemp : p.hunks.isEmpty = false := by
      simpa [List.isEmpty_iff] using hne
    have hgt : ¬ ((p.originalLineCount : Int) ≤ 0) := by
      omega
    simp [isValidLineNumber, hemp, hgt]

/-- C7 witness: the amended positive case applied to the parsed C1 diff,
whose `originalLineCount` is 7. -/
theorem claimC7_witness :
    isValidLineNumber ((parsePatch c1str).originalLineCount : Int)
      (parsePatch c1str) .original = true :=
  claimC7_amended.2.2 (parsePatch c1str) (by decide) (by decide)

/-!
## Claim C10
-/

/-- C10: `parsePatch` skips whitespace-only body lines entirely — no entry is
stored and neither counter advances — and on the concrete diff
`@@ -10,4 +10,4 @@` with a blank context line, the stored entries carry
original numbers 10, 11, 12 (and modified numbers 10, 11), so the largest
assigned original number 12 falls one short of the header-implied
`10 + 4 - 1 = 13`, one being the number of skipped blank original-side
lines. -/
theorem claimC10 :
    (∀ (st : ParseState) (line : List Char), isBlankL line = true →
      parseStep st line = st) ∧
    (parsePatch c10str).hunks.map (fun h => h.lines.map fun e =>
        (e.originalLineNumber, e.modifiedLineNumber)) =
      [[(some 10, some 10), (some 11, none), (some 12, some 11)]] ∧
    (parsePatch c10str).hunks.map (fun h =>
        ((origSeqL h.lines).foldr max 0, h.oldStartLine + h.oldLineCount - 1)) =
      [(12, 13)] := by
  exact ⟨parseStep_of_blank, by decide, by decide⟩

/-- C10 witness: the skip property applied to a concrete open-hunk state and
the blank context line (a lone space). -/
theorem claimC10_witness :
    parseStep ⟨[], some ⟨10, 4, 10, 4, [], []⟩, 10, 10, 0⟩ [' '] =
      ⟨[], some ⟨10, 4, 10, 4, [], []⟩, 10, 10, 0⟩ :=
  claimC10.1 ⟨[], some ⟨10, 4, 10, 4, [], []⟩, 10, 10, 0⟩ [' '] (by decide)

/-!
## Claim C2
-/

/-- C2 counterexample: a comment whose `line_number` is `0` is non-null, yet
the JavaScript-truthy guard `!comment.line_number` returns it unchanged
instead of mapping it to `clamp(startLine + 0 - 1) = 9`. -/
theorem claimC2_counterexample :
    (adjustCommentLineNumbers [⟨some 0, []⟩] ⟨[], 10, 20, 0, 1⟩ 100).map
        (·.line_number) = [some 0] ∧
    some (0 : Int) ≠ some (max 1 (min ((10 : Int) + 0 - 1) (100 : Int))) := by
  refine ⟨by decide, by decide⟩

/-- C2 amended: comments whose `line_number` is null *or `0`* pass through
unchanged (the `!comment.line_number` guard is JavaScript-truthy); every
other comment with `line_number = n` comes back with
`max 1 (min (chunk.startLine + n - 1) totalOriginalLines)`, which lies in
`[1, totalOriginalLines]` whenever `totalOriginalLines` is positive; in
particular `line_number 3` against `startLine 10` and total `100` becomes
`12`. -/
theorem claimC2_amended :
    (∀ (comments : List RComment) (chunk : Chunk) (total : Nat) (i : Nat)
        (c : RComment), comments.get? i = some c →
      ((c.line_number = none ∨ c.line_number = some 0 →
        (adjustCommentLineNumbers comments chunk total).get? i = some c) ∧
       (∀ n : Int, c.line_number = some n → n ≠ 0 →
        (adjustCommentLineNumbers comments chunk total).get? i =
          some ⟨some (max 1 (min ((chunk.startLine : Int) + n - 1) (total : Int))), c.body⟩ ∧
        (0 < total →
          1 ≤ max 1 (min ((chunk.startLine : Int) + n - 1) (total : Int)) ∧
          max 1 (min ((chunk.startLine : Int) + n - 1) (total : Int)) ≤
            (total : Int))))) ∧
    (adjustCommentLineNumbers [⟨some 3, []⟩] ⟨[], 10, 20, 0, 1⟩ 100).map
      (·.line_number) = [some 12] := by
  constructor
  · intro comments chunk total i c hget
    constructor
    · intro hcase
      unfold adjustCommentLineNumbers
      rw [List.get?_map, hget]
      rcases hcase with h0 | h0 <;> simp [h0]
    · intro n hn hne
      constructor
      · unfold adjustCommentLineNumbers
        rw [List.get?_map, hget]
        simp [hn, hne]
      · intro hpos
        refine ⟨le_max_left 1 _, max_le ?_ (min_le_right _ _)⟩
        exact_mod_cast hpos
  · decide

/-- C2 witness: the amended mapping applied at the spec's own example. -/
theorem claimC2_witness :
    (adjustCommentLineNumbers [⟨some 3, []⟩] ⟨[], 10, 20, 0, 1⟩ 100).get? 0 =
      some ⟨some 12, []⟩ := by
  have h := ((claimC2_amended.1 [⟨some 3, []⟩] ⟨[], 10, 20, 0, 1⟩ 100 0
    ⟨some 3, []⟩ rfl).2 3 rfl (by decide)).1
  exact h.trans (by decide)

/-!
## Claim C9
-/

/-- C9 counterexample: in the three-hunk diff `c9cexStr`, local index 1 names
an added entry of hunk 0 (null original number); the first subsequent hunk
whose entry at that index has a non-null `originalLineNumber` is hunk 1, with
value `0` — yet the function, whose check is JavaScript-truthy, skips it too
and returns hunk 2's value `7`. -/
theorem claimC9_counterexample :
    (((parsePatch c9cexStr).hunks.headD hunkD).lines.headD
        entryD).originalLineNumber = none ∧
    firstNonNullOrigAt 1 ((parsePatch c9cexStr).hunks.drop 1) = some 0 ∧
    mapPatchLineToOriginalFile 1 (parsePatch c9cexStr) = some 7 ∧
    mapPatchLineToOriginalFile 1 (parsePatch c9cexStr) ≠
      firstNonNullOrigAt 1 ((parsePatch c9cexStr).hunks.drop 1) := by
  refine ⟨by decide, by decide, by decide, by decide⟩

/-- C9 amended: if the entry at index `localLine - 1` of the first hunk has a
null `originalLineNumber`, the lookup does not stop there but continues into
the remaining hunks (first conjunct); over those hunks it returns the value
of the first in-bounds entry at that index with a *nonzero* original number —
which coincides with "first non-null" whenever no entry carries the
degenerate value `0` (second conjunct).  Concretely, local index 1 of the
two-hunk diff `c9str` names an added line in hunk 0 and resolves to original
line 20 of hunk 1 (third conjunct; hunk 0's single entry is `added`). -/
theorem claimC9_amended :
    (∀ (p : ParsedDiff) (h0 : Hunk) (rest : List Hunk) (n : Int)
        (e0 : DiffEntry),
      p.hunks = h0 :: rest → 0 < n → n ≤ (h0.content.length : Int) →
      h0.lines.get? (n - 1).toNat = some e0 → e0.originalLineNumber = none →
      mapPatchLineToOriginalFile n p = mapOrigGo n rest) ∧
    (∀ (n : Int) (l : List Hunk),
      (∀ h ∈ l, ∀ e ∈ h.lines, e.originalLineNumber ≠ some 0) →
      mapOrigGo n l = firstNonNullOrigAt n l) ∧
    mapPatchLineToOriginalFile 1 (parsePatch c9str) = some 20 ∧
    ((parsePatch c9str).hunks.headD hunkD).lines.map (·.type) = [.added] := by
  refine ⟨?_, ?_, by decide, by decide⟩
  · intro p h0 rest n e0 hp hn hlen hget he0
    have hne : p.hunks.isEmpty = false := by
      rw [hp]; rfl
    rw [mapPatchLineToOriginalFile, hne, hp]
    simp only [Bool.false_eq_true, if_false]
    rw [mapOrigGo, if_pos ⟨hlen, hn⟩, hget]
    simp [he0]
  · intro n l hall
    induction l with
    | nil => rfl
    | cons h t ih =>
      have ht : ∀ x ∈ t, ∀ e ∈ x.lines, e.originalLineNumber ≠ some 0 :=
        fun x hx => hall x (by simp [hx])
      rw [mapOrigGo, firstNonNullOrigAt]
      by_cases hcond : n ≤ (h.content.length : Int) ∧ 0 < n
      · rw [if_pos hcond, if_pos hcond]
        cases hget : h.lines.get? (n - 1).toNat with
        | none => simpa using ih ht
        | some e =>
          cases he : e.originalLineNumber with
          | none => simpa [he] using ih ht
          | some v =>
            have hv : v ≠ 0 := by
              have := hall h (by simp) e (List.get?_mem hget)
              rw [he] at this
              intro h0
              exact this (by rw [h0])
            simp [he, hv]
      · rw [if_neg hcond, if_neg hcond]
        exact ih ht

/-- C9 witness: the fallthrough equation applied to the concrete two-hunk
diff `c9str` at local index 1. -/
theorem claimC9_witness :
    mapPatchLineToOriginalFile 1 (parsePatch c9str) =
      mapOrigGo 1 ((parsePatch c9str).hunks.drop 1) :=
  claimC9_amended.1 (parsePatch c9str)
    ((parsePatch c9str).hunks.headD hunkD)
    ((parsePatch c9str).hunks.drop 1) 1
    (((parsePatch c9str).hunks.headD hunkD).lines.headD entryD)
    (by decide) (by decide) (by decide) (by decide) (by decide)

/-!
## Claim C5
-/

/-- C5: every comment surviving `reviewCodeChunk`'s post-processing carries a
validated line number that is positive, at most the chunk's own line count,
and at most double the byte-size-derived line estimate — so any comment
failing one of those checks (null, non-positive, beyond the chunk, or
implausibly large) has been dropped from the returned list, with no error
raised (the pipeline is total).  In particular a comment with line number
999999 against the 50-line chunk `code50` yields the empty list. -/
theorem claimC5 :
    (∀ (fmt : AIComment → List Char) (comments : List AIComment)
        (code : List Char) (file : FileInfo) (commitId : Option (List Char))
        (pc : PostableComment),
      pc ∈ reviewCodeChunk fmt comments code file commitId →
      ∃ n : Int, pc.line = some n ∧ 0 < n ∧
        n ≤ ((splitLines code).length : Int) ∧
        n ≤ (estimatedLineCount file : Int) * 2) ∧
    reviewCodeChunk (fun _ => []) [⟨some 999999, [], []⟩] code50 fileC5 none
      = [] ∧
    (splitLines code50).length = 50 := by
  refine ⟨?_, by decide, by decide⟩
  intro fmt comments code file commitId pc hmem
  unfold reviewCodeChunk at hmem
  simp only [List.mem_filter, List.mem_map] at hmem
  obtain ⟨⟨c, ⟨-, hg⟩, rfl⟩, hsome⟩ := hmem
  cases hline : c.line_number with
  | none =>
    rw [hline] at hg
    exact absurd hg (by simp)
  | some n =>
    rw [hline] at hg
    simp only at hg
    by_cases hn0 : n ≤ 0
    · rw [if_pos hn0] at hg
      exact absurd hg (by simp)
    · rw [if_neg hn0] at hg
      have hlc : n ≤ ((splitLines code).length : Int) := of_decide_eq_true hg
      simp only [hline] at hsome
      rw [validateCommentLineNumber, if_neg hn0] at hsome
      by_cases hbig : n > (estimatedLineCount file : Int) * 2
      · rw [if_pos hbig] at hsome
        simp at hsome
      · rw [if_neg hbig] at hsome
        refine ⟨n, ?_, by omega, hlc, by omega⟩
        simp [hline, validateCommentLineNumber, hn0, hbig]

/-- C5 witness: a comment with line number 5 against the 50-line chunk
survives, and the bounds hold for it. -/
theorem claimC5_witness :
    ∃ n : Int,
      (⟨['f'], some 5, ['b'], none, ['s'], ['t'], some 5⟩ :
        PostableComment).line = some n ∧ 0 < n ∧
      n ≤ ((splitLines code50).length : Int) ∧
      n ≤ (estimatedLineCount fileC5 : Int) * 2 :=
  claimC5.1 (fun _ => ['b']) [⟨some 5, ['s'], ['t']⟩] code50 fileC5 none
    ⟨['f'], some 5, ['b'], none, ['s'], ['t'], some 5⟩ (by decide)

/-!
## Claim C4
-/

/-- The `getOverlapLines` scan equals a budget-limited take over the slice it
can reach, by induction on the loop's iteration count. -/
theorem overlapGo_eq_budgetTake (lines : List (List Char)) (mo : Nat) :
    ∀ (fuel j size : Nat),
      overlapGo lines mo fuel j size =
        budgetTake mo size ((lines.drop j).take fuel) := by
  intro fuel
  induction fuel with
  | zero =>
    intro j size
    simp [overlapGo, budgetTake]
  | succ n ih =>
    intro j size
    rw [overlapGo]
    cases hget : lines.get? j with
    | none =>
      have hlen : lines.length ≤ j := List.get?_eq_none.mp hget
      have hdrop : lines.drop j = [] := by
        simp [List.drop_eq_nil_iff_le.mpr hlen]
      rw [hdrop]
      simp [budgetTake]
    | some line =>
      have hlt : j < lines.length := by
        by_contra hcon
        rw [List.get?_eq_none.mpr (by omega)] at hget
        exact Option.noConfusion hget
      have hdrop : lines.drop j = line :: lines.drop (j + 1) := by
        rw [List.drop_eq_getElem_cons hlt]
        have : lines[j] = line := by
          have := List.get?_eq_get hlt
          rw [hget] at this
          exact (Option.some_inj.mp this.symm)
        rw [this]
      rw [hdrop, List.take_succ_cons, budgetTake]
      dsimp only
      by_cases hfit : size + line.length + 1 ≤ mo
      · rw [if_pos hfit, if_pos hfit]
        congr 1
        exact ih (j + 1) (size + line.length + 1)
      · rw [if_neg hfit, if_neg hfit]

/-- `getOverlapLines` called from a split at line index `i` scans exactly the
window of (at most 11) lines just before the split, in forward order. -/
theorem getOverlapLines_eq_window (lines : List (List Char)) (i : Nat) (mo : Nat) :
    getOverlapLines lines ((i : Int) - 1) mo =
      budgetTake mo 0 (overlapWindow lines i) := by
  unfold getOverlapLines overlapWindow
  have h1 : ((i : Int) - 1 - 10).toNat = i - 11 := by omega
  have h2 : ((i : Int) - 1 + 1 - (((i : Int) - 1 - 10).toNat : Int)).toNat =
      min i 11 := by omega
  rw [h2, h1, overlapGo_eq_budgetTake lines mo (min i 11) (i - 11) 0]

/-- C4 counterexample: with content `"aaaa\nbb\ncccc\ndd"`, `maxChunkSize 9`
and `overlap 5`, the real `chunkFile` seeds the second chunk with `"aaaa"`
(the earliest line of its backward-capped window that fits the budget), while
seeding per the spec's backward walk would pick the tail line `"bb"`; the two
algorithms return different chunk lists. -/
theorem claimC4_counterexample :
    chunkFile c4content 9 5 ≠ chunkFileSpecSeed c4content 9 5 ∧
    (chunkFile c4content 9 5).map (·.content) =
      ["aaaa\nbb".data, "aaaa\ndd".data] ∧
    (chunkFileSpecSeed c4content 9 5).map (·.content) =
      ["aaaa\nbb".data, "bb\ndd".data] ∧
    specOverlapLines (splitLines c4content) 2 5 = ["bb".data] := by
  refine ⟨by decide, by decide, by decide, by decide⟩

/-- C4 amended: when `chunkFile` seals a chunk at split index `i`, the new
chunk is seeded with the lines of the window `[max(0, i - 11), i - 1]`
collected in *forward* order while the running size (line length + 1) stays
within `overlap` — i.e. at most 11 lines, preferring the window's earliest
lines rather than the lines nearest the split — and its `startLine` is
`max(1, i - overlapLineCount + 1)` exactly as the claim states. -/
theorem claimC4_amended :
    (∀ (lines : List (List Char)) (i mo : Nat),
      getOverlapLines lines ((i : Int) - 1) mo =
        budgetTake mo 0 (overlapWindow lines i)) ∧
    (∀ (lines : List (List Char)) (maxChunkSize overlap i : Nat)
        (line : List Char) (rest : List (List Char)) (st : CState),
      (st.buf ++ (if st.buf.isEmpty then [] else ['\n']) ++ line).length >
        maxChunkSize →
      0 < st.buf.length →
      chunkLoopGo lines maxChunkSize overlap i (line :: rest) st =
        chunkLoopGo lines maxChunkSize overlap (i + 1) rest
          ⟨st.chunks ++ [⟨st.buf, st.startLine, i, st.idx, 0⟩],
           joinNL (budgetTake overlap 0 (overlapWindow lines i)),
           (max 1 ((i : Int) -
             (budgetTake overlap 0 (overlapWindow lines i)).length + 1)).toNat,
           st.idx + 1⟩) := by
  refine ⟨fun lines i mo => getOverlapLines_eq_window lines i mo, ?_⟩
  intro lines maxChunkSize overlap i line rest st hbig hbuf
  rw [chunkLoopGo, if_pos ⟨hbig, hbuf⟩, getOverlapLines_eq_window]

/-- C4 witness: the seal step of the concrete `c4content` run (split at line
index 2), with both hypotheses checked by evaluation. -/
theorem claimC4_witness :
    chunkLoopGo (splitLines c4content) 9 5 2 ["cccc".data, "dd".data]
        ⟨[], "aaaa\nbb".data, 1, 0⟩ =
      chunkLoopGo (splitLines c4content) 9 5 3 ["dd".data]
        ⟨[⟨"aaaa\nbb".data, 1, 2, 0, 0⟩],
         joinNL (budgetTake 5 0 (overlapWindow (splitLines c4content) 2)),
         (max 1 ((2 : Int) -
           (budgetTake 5 0 (overlapWindow (splitLines c4content) 2)).length +
           1)).toNat, 1⟩ := by
  have h := claimC4_amended.2 (splitLines c4content) 9 5 2 "cccc".data
    ["dd".data] ⟨[], "aaaa\nbb".data, 1, 0⟩ (by decide) (by decide)
  exact h.trans (by decide)

/-!
## Claim C3
-/

/-- One-step unfolding of the `chunkFile` loop. -/
theorem chunkLoopGo_cons (lines : List (List Char)) (m o i : Nat)
    (line : List Char) (rest : List (List Char)) (st : CState) :
    chunkLoopGo lines m o i (line :: rest) st =
      if (st.buf ++ (if st.buf.isEmpty then [] else ['\n']) ++ line).length > m ∧
          0 < st.buf.length then
        chunkLoopGo lines m o (i + 1) rest
          ⟨st.chunks ++ [⟨st.buf, st.startLine, i, st.idx, 0⟩],
           joinNL (getOverlapLines lines ((i : Int) - 1) o),
           (max 1 ((i : Int) -
             (getOverlapLines lines ((i : Int) - 1) o).length + 1)).toNat,
           st.idx + 1⟩
      else
        chunkLoopGo lines m o (i + 1) rest
          ⟨st.chunks, st.buf ++ (if st.buf.isEmpty then [] else ['\n']) ++ line,
           st.startLine, st.idx⟩ := rfl

/-- Sealing a chunk at line index `i` preserves the loop invariant, for any
new buffer and any new pending start line that is at most `i + 1`. -/
theorem stOk_seal (st : CState) (i : Nat) (buf' : List Char) (startL' idx' : Nat)
    (hok : stOk st i) (hstart : startL' ≤ i + 1) (hidx' : idx' = st.idx + 1) :
    stOk ⟨st.chunks ++ [⟨st.buf, st.startLine, i, st.idx, 0⟩], buf', startL',
      idx'⟩ (i + 1) := by
  obtain ⟨hidx, hmap, hemp, hhead, hchain, hlast⟩ := hok
  refine ⟨?_, ?_, ?_, ?_, ?_, ?_⟩
  · simp [hidx', hidx]
  · show (st.chunks ++
        [(⟨st.buf, st.startLine, i, st.idx, 0⟩ : Chunk)]).map (·.chunkIndex) =
      List.range (st.chunks ++
        [(⟨st.buf, st.startLine, i, st.idx, 0⟩ : Chunk)]).length
    rw [List.map_append, hmap, List.length_append]
    simp [List.range_succ, hidx]
  · intro h
    exact absurd h (by simp)
  · intro c hc
    cases hcs : st.chunks with
    | nil =>
      rw [hcs] at hc
      simp only [List.nil_append, List.head?_cons, Option.some_inj] at hc
      rw [← hc]
      exact hemp hcs
    | cons a t =>
      rw [hcs] at hc
      simp only [List.cons_append, List.head?_cons, Option.some_inj] at hc
      rw [← hc]
      exact hhead a (by rw [hcs]; rfl)
  · rw [List.chain'_append]
    refine ⟨hchain, List.chain'_singleton _, ?_⟩
    intro x hx y hy
    simp only [List.head?_cons, Option.mem_def, Option.some_inj] at hy
    rw [← hy]
    exact (hlast x hx).1
  · intro c hc
    have h : (st.chunks ++
        [(⟨st.buf, st.startLine, i, st.idx, 0⟩ : Chunk)]).getLast? =
        some ⟨st.buf, st.startLine, i, st.idx, 0⟩ := by simp
    rw [h, Option.some_inj] at hc
    rw [← hc]
    exact ⟨hstart, Nat.le_succ i⟩

/-- Accumulating into the pending buffer preserves the loop invariant. -/
theorem stOk_keep (st : CState) (i : Nat) (buf' : List Char)
    (hok : stOk st i) : stOk ⟨st.chunks, buf', st.startLine, st.idx⟩ (i + 1) := by
  obtain ⟨hidx, hmap, hemp, hhead, hchain, hlast⟩ := hok
  exact ⟨hidx, hmap, hemp, hhead, hchain, fun c hc =>
    ⟨(hlast c hc).1, Nat.le_succ_of_le (hlast c hc).2⟩⟩

/-- The `chunkFile` loop preserves its invariant from any line index. -/
theorem chunkLoopGo_ok (lines : List (List Char)) (m o : Nat) :
    ∀ (rest : List (List Char)) (i : Nat) (st : CState),
      stOk st i → stOk (chunkLoopGo lines m o i rest st) (i + rest.length) := by
  intro rest
  induction rest with
  | nil =>
    intro i st hok
    simpa using hok
  | cons line rs ih =>
    intro i st hok
    rw [chunkLoopGo_cons]
    have harith : (i + 1) + rs.length = i + (line :: rs).length := by
      simp
      omega
    by_cases hc : (st.buf ++ (if st.buf.isEmpty then [] else ['\n']) ++
        line).length > m ∧ 0 < st.buf.length
    · rw [if_pos hc]
      rw [← harith]
      refine ih (i + 1) _ (stOk_seal st i _ _ _ hok ?_ rfl)
      omega
    · rw [if_neg hc]
      rw [← harith]
      exact ih (i + 1) _ (stOk_keep st i _ hok)

/-- Setting `totalChunks` on every chunk to the final count keeps all the
per-chunk line facts and makes every `totalChunks` equal to the list
length. -/
theorem map_setTot_ok (cs : List Chunk) (L : Nat)
    (h1 : cs.map (·.chunkIndex) = List.range cs.length)
    (h2 : ∀ c, cs.head? = some c → c.startLine = 1)
    (h3 : List.Chain' chunkRel cs)
    (h4 : ∀ c, cs.getLast? = some c → c.endLine ≤ L) :
    (cs.map fun c => { c with totalChunks := cs.length }).map (·.chunkIndex) =
      List.range (cs.map fun c => { c with totalChunks := cs.length }).length ∧
    (∀ c ∈ cs.map fun c => { c with totalChunks := cs.length },
      c.totalChunks = (cs.map fun c => { c with totalChunks := cs.length }).length) ∧
    (∀ c, (cs.map fun c => { c with totalChunks := cs.length }).head? = some c →
      c.startLine = 1) ∧
    List.Chain' chunkRel (cs.map fun c => { c with totalChunks := cs.length }) ∧
    (∀ c, (cs.map fun c => { c with totalChunks := cs.length }).getLast? = some c →
      c.endLine ≤ L) := by
  refine ⟨?_, ?_, ?_, ?_, ?_⟩
  · rw [List.map_map, List.length_map]
    simpa using h1
  · intro c hcm
    rw [List.mem_map] at hcm
    obtain ⟨a, -, rfl⟩ := hcm
    simp
  · intro c hcm
    rw [List.head?_map] at hcm
    cases hhd : cs.head? with
    | none => rw [hhd] at hcm; exact Option.noConfusion hcm
    | some a =>
      rw [hhd] at hcm
      simp only [Option.map_some', Option.some_inj] at hcm
      rw [← hcm]
      exact h2 a hhd
  · rw [List.chain'_map]
    exact List.Chain'.imp (fun a b hab => hab) h3
  · intro c hcm
    rw [List.getLast?_map] at hcm
    cases hlast : cs.getLast? with
    | none => rw [hlast] at hcm; exact Option.noConfusion hcm
    | some a =>
      rw [hlast] at hcm
      simp only [Option.map_some', Option.some_inj] at hcm
      rw [← hcm]
      exact h4 a hlast

/-- The trailing-buffer flush and `totalChunks` pass of `chunkFile`
(`part_017:64-79`) turn any invariant-satisfying final loop state into a
chunk list with correct indices, totals, start/end bookkeeping and the
no-gap chain. -/
theorem chunkAssemble_ok (L : Nat) (st : CState) (cs : List Chunk)
    (hok : stOk st L)
    (hcs : cs = if st.buf.isEmpty then st.chunks
      else st.chunks ++ [(⟨st.buf, st.startLine, L, st.idx, 0⟩ : Chunk)]) :
    (cs.map fun c => { c with totalChunks := cs.length }).map (·.chunkIndex) =
      List.range (cs.map fun c => { c with totalChunks := cs.length }).length ∧
    (∀ c ∈ cs.map fun c => { c with totalChunks := cs.length },
      c.totalChunks =
        (cs.map fun c => { c with totalChunks := cs.length }).length) ∧
    (∀ c, (cs.map fun c => { c with totalChunks := cs.length }).head? =
      some c → c.startLine = 1) ∧
    List.Chain' chunkRel (cs.map fun c => { c with totalChunks := cs.length }) ∧
    (∀ c, (cs.map fun c => { c with totalChunks := cs.length }).getLast? =
      some c → c.endLine ≤ L) := by
  obtain ⟨hidx, hmap, hemp, hhead, hchain, hlast⟩ := hok
  by_cases hbuf : st.buf.isEmpty = true
  · rw [if_pos hbuf] at hcs
    subst hcs
    exact map_setTot_ok st.chunks L hmap hhead hchain
      (fun c hc => (hlast c hc).2)
  · rw [if_neg hbuf] at hcs
    subst hcs
    have hseal := stOk_seal st L [] 1 (st.idx + 1) ⟨hidx, hmap, hemp, hhead,
      hchain, hlast⟩ (by omega) rfl
    obtain ⟨-, hmap2, -, hhead2, hchain2, -⟩ := hseal
    have h4 : ∀ c, (st.chunks ++
        [(⟨st.buf, st.startLine, L, st.idx, 0⟩ : Chunk)]).getLast? = some c →
        c.endLine ≤ L := by
      intro c hc
      have h : (st.chunks ++
          [(⟨st.buf, st.startLine, L, st.idx, 0⟩ : Chunk)]).getLast? =
          some ⟨st.buf, st.startLine, L, st.idx, 0⟩ := by simp
      rw [h, Option.some_inj] at hc
      rw [← hc]
    exact map_setTot_ok (st.chunks ++ [⟨st.buf, st.startLine, L, st.idx, 0⟩])
      L hmap2 hhead2 hchain2 h4

/-- C3 counterexample: content `"aaa\nbbb"` (7 characters, 2 lines) with
`maxChunkSize 5` and `overlap 1`: the loop seals `"aaa"` as chunk `[1,1]` and
re-seeds with an empty overlap (no line fits a 1-character budget), the last
line `"bbb"` is dropped by the split step, and the empty trailing buffer is
never flushed — so the single returned chunk ends at line 1, not at the
input's 2 lines, leaving line 2 uncovered. -/
theorem claimC3_counterexample :
    (splitLines c3content).length = 2 ∧
    c3content.length > 5 ∧
    (chunkFile c3content 5 1).map (fun c => (c.startLine, c.endLine)) =
      [(1, 1)] ∧
    (chunkFile c3content 5 1).getLast?.map (·.endLine) ≠ some 2 := by
  refine ⟨by decide, by decide, by decide, by decide⟩

/-- C3 amended: for every content and (resolved) chunking options, the chunk
list has `chunkIndex` values `0, 1, ...`, every chunk's `totalChunks` equal
to the list length, a first chunk starting at line 1 when the list is
nonempty, consecutive chunks satisfying `startLine ≤ previous endLine + 1`,
and a last chunk ending *at most* at the input's line count — full coverage
of `[1, totalLines]` can fail at the end: the last line can be dropped when a
split at it leaves an empty overlap seed (and the list can even be empty for
all-blank oversized content). -/
theorem claimC3_amended (content : List Char) (maxChunkSize overlap : Nat) :
    (chunkFile content maxChunkSize overlap).map (·.chunkIndex) =
      List.range (chunkFile content maxChunkSize overlap).length ∧
    (∀ c ∈ chunkFile content maxChunkSize overlap,
      c.totalChunks = (chunkFile content maxChunkSize overlap).length) ∧
    (∀ c, (chunkFile content maxChunkSize overlap).head? = some c →
      c.startLine = 1) ∧
    List.Chain' chunkRel (chunkFile content maxChunkSize overlap) ∧
    (∀ c, (chunkFile content maxChunkSize overlap).getLast? = some c →
      c.endLine ≤ (splitLines content).length) := by
  by_cases hsmall : content.length ≤ maxChunkSize
  · unfold chunkFile
    rw [if_pos hsmall]
    refine ⟨by simp [List.range_succ], ?_, ?_, List.chain'_singleton _, ?_⟩
    · intro c hc
      rw [List.mem_singleton] at hc
      subst hc
      rfl
    · intro c hc
      rw [List.head?_cons, Option.some_inj] at hc
      rw [← hc]
    · intro c hc
      rw [List.getLast?_singleton, Option.some_inj] at hc
      rw [← hc]
  · unfold chunkFile
    rw [if_neg hsmall]
    have hinit : stOk (⟨[], [], 1, 0⟩ : CState) 0 := by
      refine ⟨rfl, rfl, fun _ => rfl, ?_, List.chain'_nil, ?_⟩
      · intro c hc
        exact Option.noConfusion hc
      · intro c hc
        exact Option.noConfusion hc
    have hok := chunkLoopGo_ok (splitLines content) maxChunkSize overlap
      (splitLines content) 0 ⟨[], [], 1, 0⟩ hinit
    rw [Nat.zero_add] at hok
    exact chunkAssemble_ok (splitLines content).length _ _ hok rfl

/-- C3 witness: the amended properties instantiated on the two-chunk run of
`c4content` with `maxChunkSize 9`, `overlap 5`. -/
theorem claimC3_witness :
    (⟨"aaaa\ndd".data, 2, 4, 1, 2⟩ : Chunk).totalChunks = 2 ∧
    (⟨"aaaa\nbb".data, 1, 2, 0, 2⟩ : Chunk).startLine = 1 ∧
    (⟨"aaaa\ndd".data, 2, 4, 1, 2⟩ : Chunk).endLine ≤
      (splitLines c4content).length := by
  have h := claimC3_amended c4content 9 5
  refine ⟨?_, ?_, ?_⟩
  · exact (h.2.1 ⟨"aaaa\ndd".data, 2, 4, 1, 2⟩ (by decide)).trans (by decide)
  · exact h.2.2.1 ⟨"aaaa\nbb".data, 1, 2, 0, 2⟩ (by decide)
  · exact h.2.2.2.2 ⟨"aaaa\ndd".data, 2, 4, 1, 2⟩ (by decide)

/-!
## Claim C8
-/

/-- `origSeqL` distributes over append. -/
theorem origSeqL_append (l1 l2 : List DiffEntry) :
    origSeqL (l1 ++ l2) = origSeqL l1 ++ origSeqL l2 := by
  unfold origSeqL
  rw [List.filter_append, List.filterMap_append]

/-- `modSeqL` distributes over append. -/
theorem modSeqL_append (l1 l2 : List DiffEntry) :
    modSeqL (l1 ++ l2) = modSeqL l1 ++ modSeqL l2 := by
  unfold modSeqL
  rw [List.filter_append, List.filterMap_append]

/-- Appending a strict upper bound to a strictly increasing list keeps it
strictly increasing, with the bound bumped by one. -/
theorem chain_snoc_lt (l : List Nat) (o : Nat)
    (hc : List.Chain' (· < ·) l) (hb : ∀ v ∈ l, v < o) :
    List.Chain' (· < ·) (l ++ [o]) ∧ ∀ v ∈ l ++ [o], v < o + 1 := by
  constructor
  · rw [List.chain'_append]
    refine ⟨hc, List.chain'_singleton _, ?_⟩
    intro x hx y hy
    simp only [List.head?_cons, Option.mem_def, Option.some_inj] at hy
    rw [← hy]
    exact hb x (List.mem_of_mem_getLast? hx)
  · intro v hv
    rcases List.mem_append.mp hv with h | h
    · exact Nat.lt_succ_of_lt (hb v h)
    · rw [List.mem_singleton] at h
      omega

/-- A strict bound survives when only the bound grows. -/
theorem bound_weaken (l : List Nat) (o : Nat) (hb : ∀ v ∈ l, v < o) :
    ∀ v ∈ l, v < o + 1 :=
  fun v hv => Nat.lt_succ_of_lt (hb v hv)

/-- Appending a context entry (both counters assigned, then bumped). -/
theorem linesInv_snoc_context (l : List DiffEntry) (o m : Nat)
    (content raw : List Char) (h : linesInv l o m) :
    linesInv (l ++ [⟨some o, some m, content, .context, raw⟩]) (o + 1) (m + 1) := by
  obtain ⟨h1, h2, h3, h4, h5⟩ := h
  have ho : origSeqL [(⟨some o, some m, content, .context, raw⟩ : DiffEntry)] =
      [o] := rfl
  have hm : modSeqL [(⟨some o, some m, content, .context, raw⟩ : DiffEntry)] =
      [m] := rfl
  refine ⟨?_, ?_, ?_, ?_, ?_⟩
  · rw [origSeqL_append, ho]
    exact (chain_snoc_lt _ o h1 h2).1
  · rw [origSeqL_append, ho]
    exact (chain_snoc_lt _ o h1 h2).2
  · rw [modSeqL_append, hm]
    exact (chain_snoc_lt _ m h3 h4).1
  · rw [modSeqL_append, hm]
    exact (chain_snoc_lt _ m h3 h4).2
  · intro e he
    rcases List.mem_append.mp he with h | h
    · exact h5 e h
    · rw [List.mem_singleton] at h
      subst h
      exact ⟨fun hty => LineType.noConfusion hty,
             fun hty => LineType.noConfusion hty⟩

/-- Appending an added entry (only the modified counter assigned). -/
theorem linesInv_snoc_added (l : List DiffEntry) (o m : Nat)
    (content raw : List Char) (h : linesInv l o m) :
    linesInv (l ++ [⟨none, some m, content, .added, raw⟩]) o (m + 1) := by
  obtain ⟨h1, h2, h3, h4, h5⟩ := h
  have ho : origSeqL [(⟨none, some m, content, .added, raw⟩ : DiffEntry)] =
      [] := rfl
  have hm : modSeqL [(⟨none, some m, content, .added, raw⟩ : DiffEntry)] =
      [m] := rfl
  refine ⟨?_, ?_, ?_, ?_, ?_⟩
  · rw [origSeqL_append, ho, List.append_nil]
    exact h1
  · rw [origSeqL_append, ho, List.append_nil]
    exact h2
  · rw [modSeqL_append, hm]
    exact (chain_snoc_lt _ m h3 h4).1
  · rw [modSeqL_append, hm]
    exact (chain_snoc_lt _ m h3 h4).2
  · intro e he
    rcases List.mem_append.mp he with h | h
    · exact h5 e h
    · rw [List.mem_singleton] at h
      subst h
      exact ⟨fun _ => rfl, fun hty => LineType.noConfusion hty⟩

/-- Appending a removed entry (only the original counter assigned). -/
theorem linesInv_snoc_removed (l : List DiffEntry) (o m : Nat)
    (content raw : List Char) (h : linesInv l o m) :
    linesInv (l ++ [⟨some o, none, content, .removed, raw⟩]) (o + 1) m := by
  obtain ⟨h1, h2, h3, h4, h5⟩ := h
  have ho : origSeqL [(⟨some o, none, content, .removed, raw⟩ : DiffEntry)] =
      [o] := rfl
  have hm : modSeqL [(⟨some o, none, content, .removed, raw⟩ : DiffEntry)] =
      [] := rfl
  refine ⟨?_, ?_, ?_, ?_, ?_⟩
  · rw [origSeqL_append, ho]
    exact (chain_snoc_lt _ o h1 h2).1
  · rw [origSeqL_append, ho]
    exact (chain_snoc_lt _ o h1 h2).2
  · rw [modSeqL_append, hm, List.append_nil]
    exact h3
  · rw [modSeqL_append, hm, List.append_nil]
    exact h4
  · intro e he
    rcases List.mem_append.mp he with h | h
    · exact h5 e h
    · rw [List.mem_singleton] at h
      subst h
      exact ⟨fun hty => LineType.noConfusion hty, fun _ => rfl⟩

/-- Appending an `other` entry (no counter assigned). -/
theorem linesInv_snoc_other (l : List DiffEntry) (o m : Nat)
    (content raw : List Char) (h : linesInv l o m) :
    linesInv (l ++ [⟨none, none, content, .other, raw⟩]) o m := by
  obtain ⟨h1, h2, h3, h4, h5⟩ := h
  have ho : origSeqL [(⟨none, none, content, .other, raw⟩ : DiffEntry)] =
      [] := rfl
  have hm : modSeqL [(⟨none, none, content, .other, raw⟩ : DiffEntry)] =
      [] := rfl
  refine ⟨?_, ?_, ?_, ?_, ?_⟩
  · rw [origSeqL_append, ho, List.append_nil]
    exact h1
  · rw [origSeqL_append, ho, List.append_nil]
    exact h2
  · rw [modSeqL_append, hm, List.append_nil]
    exact h3
  · rw [modSeqL_append, hm, List.append_nil]
    exact h4
  · intro e he
    rcases List.mem_append.mp he with h | h
    · exact h5 e h
    · rw [List.mem_singleton] at h
      subst h
      exact ⟨fun hty => LineType.noConfusion hty,
             fun hty => LineType.noConfusion hty⟩

/-- Finalizing keeps the entry list, so a good open hunk finalizes to a good
hunk. -/
theorem finalize_good (rh : RawHunk) (idx o m : Nat)
    (h : linesInv rh.lines o m) : goodHunk (finalizeHunk rh idx) := by
  obtain ⟨h1, -, h3, -, h5⟩ := h
  exact ⟨h1, h3, h5⟩

/-- The empty entry list satisfies the invariant for any counters. -/
theorem linesInv_nil (o m : Nat) : linesInv [] o m := by
  refine ⟨List.chain'_nil, ?_, List.chain'_nil, ?_, ?_⟩
  · intro v hv
    exact absurd hv (by simp [origSeqL])
  · intro v hv
    exact absurd hv (by simp [modSeqL])
  · intro e he
    exact absurd he (List.not_mem_nil e)

/-- One parse step preserves the state invariant. -/
theorem parseStep_inv (st : ParseState) (line : List Char)
    (hinv : stateInv st) : stateInv (parseStep st line) := by
  obtain ⟨hgood, hcur⟩ := hinv
  unfold parseStep
  cases hh : matchHunkHeader line with
  | some quad =>
    obtain ⟨a, b, c, d⟩ := quad
    constructor
    · intro h hmem
      cases hc : st.currentHunk with
      | none =>
        rw [hc] at hmem
        exact hgood h hmem
      | some rh =>
        rw [hc] at hmem
        simp only at hmem
        rcases List.mem_append.mp hmem with hm | hm
        · exact hgood h hm
        · rw [List.mem_singleton] at hm
          subst hm
          exact finalize_good rh st.hunkIndex st.originalLineNum
            st.modifiedLineNum (hcur rh hc)
    · intro rh2 hrh2
      simp only [Option.some_inj] at hrh2
      rw [← hrh2]
      exact linesInv_nil a c
  | none =>
    cases hm : isMetadataLine line with
    | true =>
      simp only [if_true]
      exact ⟨hgood, hcur⟩
    | false =>
      simp only [Bool.false_eq_true, if_false]
      cases hc : st.currentHunk with
      | none => exact ⟨hgood, hcur⟩
      | some rh =>
        cases hb : isBlankL line with
        | true =>
          simp only [if_true]
          exact ⟨hgood, hcur⟩
        | false =>
          simp only [Bool.false_eq_true, if_false]
          cases ht : getLineType line with
          | context =>
            refine ⟨hgood, ?_⟩
            intro rh2 hrh2
            simp only [Option.some_inj] at hrh2
            rw [← hrh2]
            exact linesInv_snoc_context rh.lines st.originalLineNum
              st.modifiedLineNum (cleanLineContent line) line (hcur rh hc)
          | added =>
            refine ⟨hgood, ?_⟩
            intro rh2 hrh2
            simp only [Option.some_inj] at hrh2
            rw [← hrh2]
            exact linesInv_snoc_added rh.lines st.originalLineNum
              st.modifiedLineNum (cleanLineContent line) line (hcur rh hc)
          | removed =>
            refine ⟨hgood, ?_⟩
            intro rh2 hrh2
            simp only [Option.some_inj] at hrh2
            rw [← hrh2]
            exact linesInv_snoc_removed rh.lines st.originalLineNum
              st.modifiedLineNum (cleanLineContent line) line (hcur rh hc)
          | other =>
            refine ⟨hgood, ?_⟩
            intro rh2 hrh2
            simp only [Option.some_inj] at hrh2
            rw [← hrh2]
            exact linesInv_snoc_other rh.lines st.originalLineNum
              st.modifiedLineNum (cleanLineContent line) line (hcur rh hc)

/-- The whole parse fold preserves the invariant. -/
theorem foldl_parseStep_inv (lines : List (List Char)) :
    ∀ st : ParseState, stateInv st → stateInv (lines.foldl parseStep st) := by
  induction lines with
  | nil => exact fun st h => h
  | cons l ls ih =>
    intro st h
    rw [List.foldl_cons]
    exact ih _ (parseStep_inv st l h)

/-- C8: in every hunk `parsePatch` produces, the original line numbers
assigned to context/removed entries are strictly increasing in entry order,
the modified line numbers assigned to context/added entries are strictly
increasing in entry order, and added entries never carry an original number
while removed entries never carry a modified number. -/
theorem claimC8 (s : String) :
    ∀ h ∈ (parsePatch s).hunks,
      List.Chain' (· < ·) (origSeq h) ∧
      List.Chain' (· < ·) (modSeq h) ∧
      ∀ e ∈ h.lines,
        (e.type = .added → e.originalLineNumber = none) ∧
        (e.type = .removed → e.modifiedLineNumber = none) := by
  intro h hmem
  by_cases hb : isBlankL s.data = true
  · unfold parsePatch at hmem
    simp [hb] at hmem
  · have hb' : isBlankL s.data = false := by simpa using hb
    unfold parsePatch at hmem
    simp only [hb', Bool.not_false, if_true] at hmem
    have hinv := foldl_parseStep_inv (splitLines s.data) ⟨[], none, 1, 1, 0⟩
      ⟨fun x hx => absurd hx (List.not_mem_nil x),
       fun rh hrh => Option.noConfusion hrh⟩
    obtain ⟨hgood, hcur⟩ := hinv
    cases hcF : (List.foldl parseStep ⟨[], none, 1, 1, 0⟩
        (splitLines s.data)).currentHunk with
    | none =>
      rw [hcF] at hmem
      exact hgood h hmem
    | some rh =>
      rw [hcF] at hmem
      rcases List.mem_append.mp hmem with hm2 | hm2
      · exact hgood h hm2
      · rw [List.mem_singleton] at hm2
        subst hm2
        exact finalize_good rh _ _ _ (hcur rh hcF)

/-- C8 witness: the monotonicity and absence facts instantiated on the parsed
C1 diff's hunk and its first entry (the removed line). -/
theorem claimC8_witness :
    List.Chain' (· < ·) (origSeq c1hunk0) ∧
    List.Chain' (· < ·) (modSeq c1hunk0) ∧
    ((c1hunk0.lines.headD entryD).type = .added →
      (c1hunk0.lines.headD entryD).originalLineNumber = none) := by
  have h := claimC8 c1str c1hunk0 (by decide)
  exact ⟨h.1, h.2.1, (h.2.2 (c1hunk0.lines.headD entryD) (by decide)).1⟩
